import Mathlib

/-!
Shallow embedding of the `desim` discrete-event simulation kernel
(`src/lib.rs`) and proofs about its specification claims.

Times (`f64` in the source) are modelled by a type parameter `τ` together
with a possibly-partial comparison `tpc : τ → τ → Option Ordering`
mirroring `f64::partial_cmp`.  The main development instantiates `τ := ℚ`
(the NaN-free fragment of `f64`, where `partial_cmp` is total); the type
`F64` below adds a NaN point for the claims that concern it.

The event queue `future_events : BinaryHeap<Reverse<Event>>` is modelled
by its backing vector (a `List`) together with the `sift_up` /
`sift_down_to_bottom` algorithms of the Rust standard library, so that
the order in which equal-time events are popped is exactly the order the
source produces.  `Ord for Event` panics on uncomparable times, hence all
heap operations return `Except String`.
-/

set_option autoImplicit false

namespace Desim

/-! ### Events and effects (`Event`, `Effect`, `ProcessId`, `ResourceId`) -/

abbrev ProcessId := Nat
abbrev ResourceId := Nat

/-- `Event` from the source: an absolute firing time and the process to resume. -/
structure Event (τ : Type) where
  time : τ
  process : ProcessId
deriving DecidableEq, Repr

instance {τ : Type} [Inhabited τ] : Inhabited (Event τ) := ⟨⟨default, 0⟩⟩

/-- `Effect<T>` from the source, yielded by a process to the kernel. -/
inductive Effect (T τ : Type) where
  | TimeOut (d : τ)
  | Event (e : Desim.Event τ)
  | Request (r : ResourceId)
  | Release (r : ResourceId)
  | Wait
  | Interrupt (p : ProcessId)
  | SendMessage (p : ProcessId) (m : T) (d : τ)
deriving DecidableEq, Repr

/-- `Resource` from the source: total units, free units, FIFO queue of waiters. -/
structure Resource where
  allocated : Nat
  available : Nat
  queue : List ProcessId
deriving DecidableEq, Repr

/-! ### The binary heap backing `future_events`

`BinaryHeap<Reverse<Event>>` is modelled by its backing vector (`List ε`)
plus the standard library's algorithms.  `c x y` is the (possibly
panicking) `Ord::cmp` used by the heap on stored elements; for the event
queue it is the `Reverse`-flipped `Event` comparison. -/

section Heap

variable {ε : Type} [Inhabited ε]

/-- Exchange the elements at indices `i` and `j` (the hole-based moves of
the Rust sifts are equivalent to chains of such swaps). -/
def swapL (l : List ε) (i j : Nat) : List ε :=
  (l.set i (l.getD j default)).set j (l.getD i default)

/-- `BinaryHeap::sift_up` with `start = 0` (the only form the source uses):
while the element at `pos` is strictly greater than its parent, move it
up.  `fuel` makes the recursion structural (so that proofs can evaluate
it); the position strictly decreases at every iteration, so any
`fuel ≥ pos` suffices and the exhaustion branch is unreachable (the
totality lemma below proves it). -/
def siftUp (c : ε → ε → Except String Ordering) :
    Nat → List ε → Nat → Except String (List ε)
  | _, l, 0 => .ok l
  | 0, _, _ + 1 => .error "unreachable: sift_up fuel exhausted"
  | fuel + 1, l, pos + 1 =>
    match c (l.getD (pos + 1) default) (l.getD (pos / 2) default) with
    | .error e => .error e
    | .ok o =>
      if o = Ordering.gt then siftUp c fuel (swapL l (pos + 1) (pos / 2)) (pos / 2)
      else .ok l

/-- `BinaryHeap::sift_down_to_bottom` (used by `pop`): walk the hole to the
bottom of the tree always taking the greater child (ties go to the right
child, as in `child += (hole.get(child) <= hole.get(right)) as usize`),
then sift the element back up.  The position strictly increases while
staying below `l.length`, so any `fuel ≥ l.length - pos` (and `≥ 1`)
suffices; the exhaustion branch is unreachable. -/
def siftDown (c : ε → ε → Except String Ordering) :
    Nat → List ε → Nat → Except String (List ε)
  | 0, _, _ => .error "unreachable: sift_down fuel exhausted"
  | fuel + 1, l, pos =>
    if 2 * pos + 2 < l.length then
      match c (l.getD (2 * pos + 1) default) (l.getD (2 * pos + 2) default) with
      | .error e => .error e
      | .ok o =>
        let ch := if o = Ordering.gt then 2 * pos + 1 else 2 * pos + 2
        siftDown c fuel (swapL l pos ch) ch
    else if 2 * pos + 2 = l.length then
      siftUp c (2 * pos + 1) (swapL l pos (2 * pos + 1)) (2 * pos + 1)
    else
      siftUp c pos l pos

/-- `BinaryHeap::push`: append at the end, then sift up from the last slot. -/
def heapPush (c : ε → ε → Except String Ordering) (x : ε) (l : List ε) :
    Except String (List ε) :=
  siftUp c l.length (l ++ [x]) l.length

/-- `BinaryHeap::pop`: remove the last element; if the heap is still
non-empty, swap it with the root and sift down.  Returns the popped
minimum together with the new backing vector. -/
def heapPop (c : ε → ε → Except String Ordering) (l : List ε) :
    Except String (Option (ε × List ε)) :=
  match l.getLast? with
  | none => .ok none
  | some item =>
    let rest := l.dropLast
    if rest.isEmpty then .ok (some (item, []))
    else
      match siftDown c rest.length (rest.set 0 item) 0 with
      | .error e => .error e
      | .ok rest2 => .ok (some (rest.getD 0 default, rest2))

end Heap

/-! ### Time comparisons -/

section TimeModel

variable {τ : Type}

/-- `impl Ord for Event`: compare the `time` fields with the partial
comparison; an uncomparable pair (a NaN) panics. -/
def eventCmp (tpc : τ → τ → Option Ordering) (a b : Event τ) :
    Except String Ordering :=
  match tpc a.time b.time with
  | some o => .ok o
  | none => .error "Event time was uncomparable. Maybe a NaN"

/-- Comparison the heap actually performs: the stored elements are
`Reverse<Event>`, so the arguments are flipped. -/
def revCmp (tpc : τ → τ → Option Ordering) (a b : Event τ) :
    Except String Ordering :=
  eventCmp tpc b a

end TimeModel

/-- `f64::partial_cmp` on the NaN-free fragment, modelled by `ℚ`: always total. -/
def tpcmpQ (a b : ℚ) : Option Ordering :=
  some (if a < b then Ordering.lt else if a = b then Ordering.eq else Ordering.gt)

/-- Model of `f64` retaining the NaN point: `nan` is uncomparable with
everything (including itself) and propagates through addition. -/
inductive F64 where
  | nan
  | val (q : ℚ)
deriving DecidableEq, Repr

instance : Inhabited F64 := ⟨F64.val 0⟩

instance : Add F64 :=
  ⟨fun a b =>
    match a, b with
    | F64.val x, F64.val y => F64.val (x + y)
    | _, _ => F64.nan⟩

/-- `f64::partial_cmp` with NaN: `None` whenever either side is NaN. -/
def tpcmpF : F64 → F64 → Option Ordering
  | F64.val a, F64.val b => tpcmpQ a b
  | _, _ => none

/-! ### Context (`Context<T>`)

`messages : RefCell<HashMap<ProcessId, VecDeque<T>>>` is modelled as an
association list with the deques as `List`s; `interrupted :
RefCell<HashSet<ProcessId>>` as a `Finset`. -/

/-- Append `m` to `pid`'s deque, creating the entry if absent
(`Context::push_message`). -/
def pushMsgA {T : Type} : List (ProcessId × List T) → ProcessId → T → List (ProcessId × List T)
  | [], pid, m => [(pid, [m])]
  | (q, vd) :: t, pid, m =>
    if q = pid then (q, vd ++ [m]) :: t else (q, vd) :: pushMsgA t pid m

/-- `Context<T>` from the source. -/
structure Context (T τ : Type) where
  time : τ
  messages : List (ProcessId × List T)
  interrupted : Finset ProcessId
deriving DecidableEq

/-- `Context::default()`: time 0, no messages, no interrupts. -/
def Context.new (T : Type) : Context T ℚ :=
  { time := 0, messages := [], interrupted := ∅ }

/-- `Context::push_message`. -/
def Context.push_message {T τ : Type} (c : Context T τ) (pid : ProcessId) (m : T) :
    Context T τ :=
  { c with messages := pushMsgA c.messages pid m }

/-- `Context::pop_message`: take the front of `pid`'s deque, if any. -/
def Context.pop_message {T τ : Type} (c : Context T τ) (pid : ProcessId) :
    Option T × Context T τ :=
  match c.messages.lookup pid with
  | some (m :: _) => (some m,
      { c with messages := c.messages.map (fun e =>
          if e.1 = pid then (e.1, e.2.tail) else e) })
  | _ => (none, c)

/-- `Context::interrupt`: insert `pid` into the interrupted set. -/
def Context.interrupt {T τ : Type} (c : Context T τ) (pid : ProcessId) : Context T τ :=
  { c with interrupted := insert pid c.interrupted }

/-- `Context::check_interrupted`: `HashSet::remove` — report whether `pid`
was present and remove it. -/
def Context.check_interrupted {T τ : Type} (c : Context T τ) (pid : ProcessId) :
    Bool × Context T τ :=
  (pid ∈ c.interrupted, { c with interrupted := c.interrupted.erase pid })

/-! ### Process table

`processes : HashMap<ProcessId, Option<Box<dyn Generator…>>>` is modelled
as an association list.  A process body is modelled as the list of effects
its successive resumptions yield (`[]` means the next resumption
completes); the `Option` wrapper is the tombstone left by `.take()`. -/

/-- Body of a process: the effects yielded by its successive resumptions. -/
abbrev Proc (T τ : Type) := List (Effect T τ)

/-- `HashMap::get`: first matching key, if any. -/
def lookupA {α : Type} : List (ProcessId × α) → ProcessId → Option α
  | [], _ => none
  | (q, v) :: t, p => if q = p then some v else lookupA t p

/-- Overwrite the value stored under key `p` (no-op if absent; the kernel
only writes to keys it has just looked up). -/
def setA {α : Type} : List (ProcessId × α) → ProcessId → α → List (ProcessId × α)
  | [], _, _ => []
  | (q, w) :: t, p, v => if q = p then (q, v) :: t else (q, w) :: setA t p v

/-! ### The simulation (`Simulation<T>`) -/

/-- `Simulation<T>` from the source. -/
structure Simulation (T τ : Type) where
  context : Context T τ
  processes : List (ProcessId × Option (Proc T τ))
  future_events : List (Event τ)
  processed_events : List (Event τ)
  resources : List Resource
deriving DecidableEq

/-- `EndCondition` from the source. -/
inductive EndCondition (τ : Type) where
  | Time (t : τ)
  | NoEvents
  | NSteps (n : Nat)

section Kernel

variable {T τ : Type} [Inhabited τ] [Add τ] (tpc : τ → τ → Option Ordering)

/-- `Simulation::new`. -/
def Simulation.new (ctx : Context T τ) : Simulation T τ :=
  { context := ctx
    processes := []
    future_events := []
    processed_events := []
    resources := [] }

/-- `Simulation::create_process`: duplicate pids are a fatal error. -/
def Simulation.create_process (s : Simulation T τ) (pid : ProcessId) (body : Proc T τ) :
    Except String (Simulation T τ) :=
  match lookupA s.processes pid with
  | some _ => .error "ERROR: duplicate PID"
  | none => .ok { s with processes := s.processes ++ [(pid, some body)] }

/-- `Simulation::create_resource`: ids are dense, allocated in order. -/
def Simulation.create_resource (s : Simulation T τ) (n : Nat) :
    Simulation T τ × ResourceId :=
  ({ s with resources := s.resources ++ [{ allocated := n, available := n, queue := [] }] },
   s.resources.length)

/-- `Simulation::schedule_event`: a bare `BinaryHeap::push`. -/
def Simulation.schedule_event (s : Simulation T τ) (event : Event τ) :
    Except String (Simulation T τ) :=
  match heapPush (revCmp tpc) event s.future_events with
  | .error e => .error e
  | .ok fe => .ok { s with future_events := fe }

/-- Dispatch one yielded effect.  `s` is the state after the event was
popped (so `s.future_events` is the remaining queue and `s.context.time`
is the popped event's time) and `event` the popped event. -/
def handleEffect (s : Simulation T τ) (event : Event τ) :
    Effect T τ → Except String (Simulation T τ)
  | Effect.TimeOut d =>
    match heapPush (revCmp tpc) { time := s.context.time + d, process := event.process }
        s.future_events with
    | .error e => .error e
    | .ok fe => .ok { s with future_events := fe }
  | Effect.Event e =>
    match heapPush (revCmp tpc) { time := e.time + s.context.time, process := e.process }
        s.future_events with
    | .error er => .error er
    | .ok fe => .ok { s with future_events := fe }
  | Effect.Request r =>
    match s.resources.get? r with
    | none => .error "index out of bounds"
    | some res =>
      if res.available = 0 then
        .ok { s with resources := s.resources.set r { res with queue := res.queue ++ [event.process] } }
      else
        match heapPush (revCmp tpc) { time := s.context.time, process := event.process }
            s.future_events with
        | .error e => .error e
        | .ok fe =>
          .ok { s with future_events := fe
                       resources := s.resources.set r { res with available := res.available - 1 } }
  | Effect.Release r =>
    match s.resources.get? r with
    | none => .error "index out of bounds"
    | some res =>
      match res.queue with
      | p :: q =>
        match heapPush (revCmp tpc) { time := s.context.time, process := p }
            s.future_events with
        | .error e => .error e
        | .ok fe1 =>
          match heapPush (revCmp tpc) { time := s.context.time, process := event.process } fe1 with
          | .error e => .error e
          | .ok fe2 =>
            .ok { s with future_events := fe2
                         resources := s.resources.set r { res with queue := q } }
      | [] =>
        if res.available < res.allocated then
          match heapPush (revCmp tpc) { time := s.context.time, process := event.process }
              s.future_events with
          | .error e => .error e
          | .ok fe =>
            .ok { s with future_events := fe
                         resources := s.resources.set r { res with available := res.available + 1 } }
        else .error "assertion failed: res.available < res.allocated"
  | Effect.Wait => .ok s
  | Effect.Interrupt pid =>
    match heapPush (revCmp tpc) { time := s.context.time, process := pid } s.future_events with
    | .error e => .error e
    | .ok fe1 =>
      match heapPush (revCmp tpc) { time := s.context.time, process := event.process } fe1 with
      | .error e => .error e
      | .ok fe2 =>
        .ok { s with future_events := fe2
                     context := s.context.interrupt pid }
  | Effect.SendMessage pid m d =>
    match heapPush (revCmp tpc) { time := s.context.time + d, process := pid } s.future_events with
    | .error e => .error e
    | .ok fe1 =>
      match heapPush (revCmp tpc) { time := s.context.time, process := event.process } fe1 with
      | .error e => .error e
      | .ok fe2 =>
        .ok { s with future_events := fe2
                     context := (s.context.push_message pid m) }

/-- `Simulation::step`: pop the earliest event, set the clock to its time,
resume the named process, dispatch the yielded effect (or tombstone the
slot on completion), then log the event. -/
def Simulation.step (s : Simulation T τ) : Except String (Simulation T τ) :=
  match heapPop (revCmp tpc) s.future_events with
  | .error e => .error e
  | .ok none => .ok s
  | .ok (some (event, rest)) =>
    match lookupA s.processes event.process with
    | none => .error "No such process"
    | some none => .error "ERROR. Tried to resume a completed process."
    | some (some []) =>
      .ok { s with
            context := { s.context with time := event.time }
            processes := setA s.processes event.process none
            future_events := rest
            processed_events := s.processed_events ++ [event] }
    | some (some (eff :: k)) =>
      let s1 : Simulation T τ :=
        { s with
          context := { s.context with time := event.time }
          processes := setA s.processes event.process (some k)
          future_events := rest }
      match handleEffect tpc s1 event eff with
      | .error e => .error e
      | .ok s2 => .ok { s2 with processed_events := s2.processed_events ++ [event] }

/-- `Simulation::check_ending_condition`.  The `Time` comparison is the
source's `self.context.time() >= *t`, i.e. `partial_cmp ∈ {Greater, Equal}`
(false on NaN). -/
def Simulation.check_ending_condition (s : Simulation T τ) : EndCondition τ → Bool
  | EndCondition.Time t =>
    match tpc s.context.time t with
    | some Ordering.gt => true
    | some Ordering.eq => true
    | _ => false
  | EndCondition.NoEvents => s.future_events.length = 0
  | EndCondition.NSteps n => s.processed_events.length = n

/-- `Simulation::run` is a `while !check { step }` loop and need not
terminate; `fuel` bounds the number of loop iterations we observe.
`ok none` means the loop was still running after `fuel` iterations. -/
def Simulation.run (fuel : Nat) (s : Simulation T τ) (until_ : EndCondition τ) :
    Except String (Option (Simulation T τ)) :=
  match fuel with
  | 0 => .ok none
  | fuel + 1 =>
    if s.check_ending_condition tpc until_ then .ok (some s)
    else
      match s.step tpc with
      | .error e => .error e
      | .ok s' => Simulation.run fuel s' until_

end Kernel

/-! ### Concrete scenarios used by the claim analyses -/

/-- Four processes that immediately suspend forever; used to observe the
order in which four equal-time events are popped. -/
def fifoSim : Simulation Unit ℚ :=
  { context := Context.new Unit
    processes := [(1, some [Effect.Wait]), (2, some [Effect.Wait]),
                  (3, some [Effect.Wait]), (4, some [Effect.Wait])]
    future_events := []
    processed_events := []
    resources := [] }

/-- Schedule the equal-time events `{0,1}, {0,2}, {0,3}, {0,4}` in this
order, then run four steps. -/
def fifoRun : Except String (Simulation Unit ℚ) := do
  let a ← fifoSim.schedule_event tpcmpQ { time := 0, process := 1 }
  let b ← a.schedule_event tpcmpQ { time := 0, process := 2 }
  let c ← b.schedule_event tpcmpQ { time := 0, process := 3 }
  let d ← c.schedule_event tpcmpQ { time := 0, process := 4 }
  let e ← d.step tpcmpQ
  let f ← e.step tpcmpQ
  let g ← f.step tpcmpQ
  g.step tpcmpQ

/-- One process that suspends twice. -/
def regressSim : Simulation Unit ℚ :=
  { context := Context.new Unit
    processes := [(1, some [Effect.Wait, Effect.Wait])]
    future_events := []
    processed_events := []
    resources := [] }

/-- Schedule `{5,1}` and consume it (clock becomes 5). -/
def regressFirst : Except String (Simulation Unit ℚ) := do
  let a ← regressSim.schedule_event tpcmpQ { time := 5, process := 1 }
  a.step tpcmpQ

/-- Then inject the past event `{3,1}` — accepted unmodified — and consume it. -/
def regressSecond : Except String (Simulation Unit ℚ) := do
  let a ← regressFirst
  let b ← a.schedule_event tpcmpQ { time := 3, process := 1 }
  b.step tpcmpQ

/-- Fresh simulation over NaN-capable times with one waiting process. -/
def nanSim : Simulation Unit F64 :=
  { context := { time := F64.val 0, messages := [], interrupted := ∅ }
    processes := [(1, some [Effect.Wait])]
    future_events := []
    processed_events := []
    resources := [] }

/-- Scheduling an event whose time is NaN while the queue is empty. -/
def nanSched : Except String (Simulation Unit F64) :=
  nanSim.schedule_event tpcmpF { time := F64.nan, process := 1 }

/-- Process 1 releases capacity-1 resource 0 on which process 2 is blocked. -/
def relSim : Simulation Unit ℚ :=
  { context := Context.new Unit
    processes := [(1, some [Effect.Release 0]), (2, some [])]
    future_events := [{ time := 1, process := 1 }]
    processed_events := []
    resources := [{ allocated := 1, available := 0, queue := [2] }] }

/-- Process 1 requests resource 0, which has one free unit. -/
def reqSim : Simulation Unit ℚ :=
  { context := Context.new Unit
    processes := [(1, some [Effect.Request 0])]
    future_events := [{ time := 1, process := 1 }]
    processed_events := []
    resources := [{ allocated := 2, available := 1, queue := [] }] }

/-- Process 1 yields `Effect::Event { time := 2, process := 7 }` at clock 1. -/
def evSim : Simulation Unit ℚ :=
  { context := Context.new Unit
    processes := [(1, some [Effect.Event { time := 2, process := 7 }]), (7, some [Effect.Wait])]
    future_events := [{ time := 1, process := 1 }]
    processed_events := []
    resources := [] }

/-- Process 1 releases resource 0 although it is already at capacity. -/
def overSim : Simulation Unit ℚ :=
  { context := Context.new Unit
    processes := [(1, some [Effect.Release 0])]
    future_events := [{ time := 0, process := 1 }]
    processed_events := []
    resources := [{ allocated := 1, available := 1, queue := [] }] }

/-- Process 1's body completes at its next resumption. -/
def doneSim : Simulation Unit ℚ :=
  { context := Context.new Unit
    processes := [(1, some [])]
    future_events := [{ time := 2, process := 1 }]
    processed_events := []
    resources := [] }

/-- Process 1's slot is already a tombstone, yet an event names it. -/
def tombSim : Simulation Unit ℚ :=
  { context := Context.new Unit
    processes := [(1, none)]
    future_events := [{ time := 2, process := 1 }]
    processed_events := []
    resources := [] }

/-- Process 1 interrupts process 2 at clock 1. -/
def intSim : Simulation Unit ℚ :=
  { context := Context.new Unit
    processes := [(1, some [Effect.Interrupt 2]), (2, some [Effect.Wait])]
    future_events := [{ time := 1, process := 1 }]
    processed_events := []
    resources := [] }

/-- A quiesced simulation: the queue is empty while the clock is 0. -/
def quietSim : Simulation Unit ℚ :=
  { context := Context.new Unit
    processes := []
    future_events := []
    processed_events := []
    resources := [] }

/-! ## Lemmas about the heap embedding -/

section HeapLemmas

variable {ε : Type} [Inhabited ε]

theorem swapL_len (l : List ε) (i j : Nat) : (swapL l i j).length = l.length := by
  simp [swapL]

theorem getD_set_perm (l : List ε) (n : Nat) (a : ε) (h : n < l.length) :
    (l.getD n default :: l.set n a).Perm (a :: l) := by
  induction l generalizing n with
  | nil => simp at h
  | cons b t ih =>
    cases n with
    | zero => simpa [List.getD] using List.Perm.swap a b t
    | succ n =>
      have h' : n < t.length := by simpa using h
      have step1 : (t.getD n default :: b :: t.set n a).Perm
          (b :: t.getD n default :: t.set n a) := List.Perm.swap b _ _
      have step2 : (b :: t.getD n default :: t.set n a).Perm (b :: a :: t) :=
        (ih n h').cons b
      have step3 : (b :: a :: t).Perm (a :: b :: t) := List.Perm.swap a b t
      simpa [List.getD] using (step1.trans step2).trans step3

theorem swapL_perm (l : List ε) (i j : Nat) (hi : i < l.length) (hj : j < l.length) :
    (swapL l i j).Perm l := by
  have h1 := getD_set_perm l i (l.getD j default) hi
  have hj' : j < (l.set i (l.getD j default)).length := by simpa using hj
  have h2 := getD_set_perm (l.set i (l.getD j default)) j (l.getD i default) hj'
  have hgd : (l.set i (l.getD j default)).getD j default = l.getD j default := by
    rw [List.getD_eq_getElem _ _ hj', List.getElem_set]
    split
    · rfl
    · exact (List.getD_eq_getElem _ _ hj).symm
  rw [hgd] at h2
  have h3 : (l.getD j default :: swapL l i j).Perm (l.getD j default :: l) := by
    have := h2.trans h1
    simpa [swapL] using this
  exact h3.cons_inv

theorem siftUp_perm (c : ε → ε → Except String Ordering) :
    ∀ (fuel : Nat) (l : List ε) (pos : Nat) (l' : List ε),
      siftUp c fuel l pos = .ok l' → pos < l.length → l'.Perm l := by
  intro fuel
  induction fuel with
  | zero =>
    intro l pos l' h hp
    cases pos with
    | zero =>
      simp only [siftUp, Except.ok.injEq] at h
      exact h ▸ List.Perm.refl l
    | succ p => simp [siftUp] at h
  | succ fuel ih =>
    intro l pos l' h hp
    cases pos with
    | zero =>
      simp only [siftUp, Except.ok.injEq] at h
      exact h ▸ List.Perm.refl l
    | succ p =>
      rw [siftUp] at h
      cases hc : c (l.getD (p + 1) default) (l.getD (p / 2) default) with
      | error e => rw [hc] at h; cases h
      | ok o =>
        rw [hc] at h
        by_cases ho : o = Ordering.gt
        · simp only [ho, if_pos rfl] at h
          have hd : p / 2 < l.length := by omega
          have hrec := ih (swapL l (p + 1) (p / 2)) (p / 2) l' h (by simpa [swapL_len] using hd)
          exact hrec.trans (swapL_perm l (p + 1) (p / 2) hp hd)
        · simp only [if_neg ho, Except.ok.injEq] at h
          exact h ▸ List.Perm.refl l

theorem siftDown_perm (c : ε → ε → Except String Ordering) :
    ∀ (fuel : Nat) (l : List ε) (pos : Nat) (l' : List ε),
      siftDown c fuel l pos = .ok l' → pos < l.length → l'.Perm l := by
  intro fuel
  induction fuel with
  | zero => intro l pos l' h _; cases h
  | succ fuel ih =>
    intro l pos l' h hp
    rw [siftDown] at h
    by_cases h1 : 2 * pos + 2 < l.length
    · rw [if_pos h1] at h
      cases hc : c (l.getD (2 * pos + 1) default) (l.getD (2 * pos + 2) default) with
      | error e => rw [hc] at h; cases h
      | ok o =>
        rw [hc] at h
        by_cases ho : o = Ordering.gt
        · simp only [ho, if_pos rfl] at h
          have hch : 2 * pos + 1 < l.length := by omega
          have hrec := ih (swapL l pos (2 * pos + 1)) (2 * pos + 1) l' h
            (by simpa [swapL_len] using hch)
          exact hrec.trans (swapL_perm l pos (2 * pos + 1) hp hch)
        · simp only [if_neg ho] at h
          have hch : 2 * pos + 2 < l.length := h1
          have hrec := ih (swapL l pos (2 * pos + 2)) (2 * pos + 2) l' h
            (by simpa [swapL_len] using hch)
          exact hrec.trans (swapL_perm l pos (2 * pos + 2) hp hch)
    · rw [if_neg h1] at h
      by_cases h2 : 2 * pos + 2 = l.length
      · rw [if_pos h2] at h
        have hch : 2 * pos + 1 < l.length := by omega
        have hup := siftUp_perm c (2 * pos + 1) (swapL l pos (2 * pos + 1)) (2 * pos + 1) l' h
          (by simpa [swapL_len] using hch)
        exact hup.trans (swapL_perm l pos (2 * pos + 1) hp hch)
      · rw [if_neg h2] at h
        exact siftUp_perm c pos l pos l' h hp

theorem heapPush_perm (c : ε → ε → Except String Ordering) (x : ε) (l l' : List ε)
    (h : heapPush c x l = .ok l') : l'.Perm (x :: l) := by
  have hp : l.length < (l ++ [x]).length := by simp
  exact (siftUp_perm c l.length (l ++ [x]) l.length l' h hp).trans
    (List.perm_append_singleton x l)

theorem heapPop_perm (c : ε → ε → Except String Ordering) (l l' : List ε) (e : ε)
    (h : heapPop c l = .ok (some (e, l'))) : l.Perm (e :: l') := by
  unfold heapPop at h
  cases hl : l.getLast? with
  | none => simp [hl] at h
  | some item =>
    simp only [hl] at h
    by_cases he : l.dropLast.isEmpty
    · rw [if_pos he] at h
      have hemp : l.dropLast = [] := List.isEmpty_iff.mp he
      have hsplit : l.dropLast ++ [item] = l := List.dropLast_append_getLast? item hl
      rw [hemp] at hsplit
      simp only [List.nil_append] at hsplit
      simp only [Except.ok.injEq, Option.some.injEq, Prod.mk.injEq] at h
      obtain ⟨rfl, rfl⟩ := h
      rw [← hsplit]
    · rw [if_neg he] at h
      cases hsd : siftDown c l.dropLast.length (l.dropLast.set 0 item) 0 with
      | error e2 => rw [hsd] at h; cases h
      | ok rest2 =>
        rw [hsd] at h
        simp only [Except.ok.injEq, Option.some.injEq, Prod.mk.injEq] at h
        have hne : l.dropLast ≠ [] := by
          intro habs; rw [habs] at he; simp at he
        have h0 : 0 < l.dropLast.length := List.length_pos.mpr hne
        have hperm2 : rest2.Perm (l.dropLast.set 0 item) :=
          siftDown_perm c l.dropLast.length (l.dropLast.set 0 item) 0 rest2 hsd
            (by simpa using h0)
        have hset : (l.dropLast.getD 0 default :: l.dropLast.set 0 item).Perm
            (item :: l.dropLast) := getD_set_perm l.dropLast 0 item h0
        have hmid : (l.dropLast.getD 0 default :: rest2).Perm (item :: l.dropLast) :=
          (hperm2.cons _).trans hset
        have hsplit : l.dropLast ++ [item] = l := List.dropLast_append_getLast? item hl
        have happ : (item :: l.dropLast).Perm l := by
          have h' := (List.perm_append_singleton item l.dropLast).symm
          rwa [hsplit] at h'
        have hfin : (l.dropLast.getD 0 default :: rest2).Perm l := hmid.trans happ
        obtain ⟨rfl, rfl⟩ := h
        exact hfin.symm

theorem siftUp_ok (c : ε → ε → Except String Ordering)
    (hc : ∀ a b, ∃ o, c a b = .ok o) :
    ∀ (fuel : Nat) (l : List ε) (pos : Nat), pos ≤ fuel →
      ∃ l', siftUp c fuel l pos = .ok l' := by
  intro fuel
  induction fuel with
  | zero =>
    intro l pos hp
    cases pos with
    | zero => exact ⟨l, rfl⟩
    | succ p => omega
  | succ fuel ih =>
    intro l pos hp
    cases pos with
    | zero => exact ⟨l, rfl⟩
    | succ p =>
      obtain ⟨o, ho⟩ := hc (l.getD (p + 1) default) (l.getD (p / 2) default)
      by_cases hgt : o = Ordering.gt
      · obtain ⟨l', hl'⟩ := ih (swapL l (p + 1) (p / 2)) (p / 2) (by omega)
        refine ⟨l', ?_⟩
        simp only [siftUp]
        rw [ho]
        subst hgt
        exact hl'
      · refine ⟨l, ?_⟩
        simp only [siftUp]
        rw [ho]
        cases o with
        | lt => rfl
        | eq => rfl
        | gt => exact absurd rfl hgt
  
theorem siftDown_ok (c : ε → ε → Except String Ordering)
    (hc : ∀ a b, ∃ o, c a b = .ok o) :
    ∀ (fuel : Nat) (l : List ε) (pos : Nat), l.length ≤ fuel + pos → 1 ≤ fuel →
      ∃ l', siftDown c fuel l pos = .ok l' := by
  intro fuel
  induction fuel with
  | zero => intro l pos _ h1; omega
  | succ fuel ih =>
    intro l pos hlen _
    by_cases h1 : 2 * pos + 2 < l.length
    · obtain ⟨o, ho⟩ := hc (l.getD (2 * pos + 1) default) (l.getD (2 * pos + 2) default)
      by_cases hgt : o = Ordering.gt
      · obtain ⟨l', hl'⟩ := ih (swapL l pos (2 * pos + 1)) (2 * pos + 1)
          (by simp only [swapL_len]; omega) (by omega)
        refine ⟨l', ?_⟩
        rw [siftDown, if_pos h1, ho]
        subst hgt
        exact hl'
      · obtain ⟨l', hl'⟩ := ih (swapL l pos (2 * pos + 2)) (2 * pos + 2)
          (by simp only [swapL_len]; omega) (by omega)
        refine ⟨l', ?_⟩
        rw [siftDown, if_pos h1, ho]
        cases o with
        | lt => exact hl'
        | eq => exact hl'
        | gt => exact absurd rfl hgt
    · by_cases h2 : 2 * pos + 2 = l.length
      · obtain ⟨l', hl'⟩ := siftUp_ok c hc (2 * pos + 1) (swapL l pos (2 * pos + 1))
          (2 * pos + 1) (le_refl _)
        exact ⟨l', by rw [siftDown, if_neg h1, if_pos h2]; exact hl'⟩
      · obtain ⟨l', hl'⟩ := siftUp_ok c hc pos l pos (le_refl _)
        exact ⟨l', by rw [siftDown, if_neg h1, if_neg h2]; exact hl'⟩

theorem heapPush_ok (c : ε → ε → Except String Ordering)
    (hc : ∀ a b, ∃ o, c a b = .ok o) (x : ε) (l : List ε) :
    ∃ l', heapPush c x l = .ok l' ∧ l'.Perm (x :: l) := by
  obtain ⟨l', hl'⟩ := siftUp_ok c hc l.length (l ++ [x]) l.length (le_refl _)
  exact ⟨l', hl', heapPush_perm c x l l' hl'⟩

end HeapLemmas

/-! ## Kernel-level helper lemmas -/

theorem revCmpQ_total : ∀ a b : Event ℚ, ∃ o, revCmp tpcmpQ a b = .ok o :=
  fun _ _ => ⟨_, rfl⟩

theorem lookupA_setA {α : Type} (ps : List (ProcessId × α)) (p : ProcessId) (v w : α)
    (h : lookupA ps p = some w) : lookupA (setA ps p v) p = some v := by
  induction ps with
  | nil => cases h
  | cons hd t ih =>
    obtain ⟨q, u⟩ := hd
    by_cases hqp : q = p
    · simp [lookupA, setA, hqp]
    · simp only [lookupA, setA, if_neg hqp] at h ⊢
      exact ih h

/-! ## The claims -/

/-- C5: when a process yields `Effect::Event(e)` during a step at clock
time `t`, the kernel treats `e.time` as a delay relative to the current
time: the enqueued event fires at absolute time `e.time + t` for
`e.process`, not at absolute time `e.time`. -/
theorem event_effect_time_is_relative {T : Type} (s : Simulation T ℚ) (ev : Event ℚ)
    (rest : List (Event ℚ)) (e : Event ℚ) (k : Proc T ℚ)
    (hpop : heapPop (revCmp tpcmpQ) s.future_events = .ok (some (ev, rest)))
    (hlk : lookupA s.processes ev.process = some (some (Effect.Event e :: k))) :
    ∃ s', s.step tpcmpQ = .ok s' ∧
      s'.context.time = ev.time ∧
      s'.future_events.Perm ({ time := e.time + ev.time, process := e.process } :: rest) ∧
      s'.processed_events = s.processed_events ++ [ev] := by
  obtain ⟨fe, hfe, hperm⟩ := heapPush_ok (revCmp tpcmpQ) revCmpQ_total
    { time := e.time + ev.time, process := e.process } rest
  simp only [Simulation.step, hpop, hlk, handleEffect]
  rw [hfe]
  exact ⟨_, rfl, rfl, hperm, rfl⟩

/-- C5 witness: `evSim` instantiates the hypotheses of
`event_effect_time_is_relative`; the event is queued at time `2 + 1 = 3`. -/
theorem event_effect_time_is_relative_witness :
    heapPop (revCmp tpcmpQ) evSim.future_events =
      .ok (some ({ time := 1, process := 1 }, [])) ∧
    lookupA evSim.processes 1 =
      some (some ([Effect.Event { time := 2, process := 7 }] : Proc Unit ℚ)) ∧
    ∃ s', evSim.step tpcmpQ = .ok s' ∧
      s'.context.time = 1 ∧
      s'.future_events.Perm [{ time := 3, process := 7 }] ∧
      s'.processed_events = [{ time := 1, process := 1 }] := by
  refine ⟨rfl, rfl, ?_⟩
  have h := event_effect_time_is_relative evSim { time := 1, process := 1 } []
    { time := 2, process := 7 } [] rfl rfl
  norm_num at h
  simpa using h

/-- C3: a `Release(r)` yielded while `r`'s waiter queue is non-empty pops
the front waiter `w`, schedules `w` at the current time, leaves
`available` unchanged at 0 (direct hand-off), and schedules the releaser
at the current time; with an empty waiter queue, `available` is
incremented and the releaser is scheduled at the current time. -/
theorem release_handoff_semantics {T : Type} (s : Simulation T ℚ) (ev : Event ℚ)
    (rest : List (Event ℚ)) (r : ResourceId) (res : Resource) (k : Proc T ℚ)
    (hpop : heapPop (revCmp tpcmpQ) s.future_events = .ok (some (ev, rest)))
    (hlk : lookupA s.processes ev.process = some (some (Effect.Release r :: k)))
    (hres : s.resources.get? r = some res) :
    (∀ w q', res.queue = w :: q' → res.available = 0 →
      ∃ s', s.step tpcmpQ = .ok s' ∧
        s'.resources = s.resources.set r
          { allocated := res.allocated, available := 0, queue := q' } ∧
        s'.future_events.Perm
          ({ time := ev.time, process := ev.process } ::
            { time := ev.time, process := w } :: rest) ∧
        s'.context.time = ev.time ∧
        s'.processed_events = s.processed_events ++ [ev]) ∧
    (res.queue = [] → res.available < res.allocated →
      ∃ s', s.step tpcmpQ = .ok s' ∧
        s'.resources = s.resources.set r
          { allocated := res.allocated, available := res.available + 1, queue := [] } ∧
        s'.future_events.Perm ({ time := ev.time, process := ev.process } :: rest) ∧
        s'.context.time = ev.time ∧
        s'.processed_events = s.processed_events ++ [ev]) := by
  constructor
  · intro w q' hq hav
    obtain ⟨fe1, hfe1, hp1⟩ := heapPush_ok (revCmp tpcmpQ) revCmpQ_total
      { time := ev.time, process := w } rest
    obtain ⟨fe2, hfe2, hp2⟩ := heapPush_ok (revCmp tpcmpQ) revCmpQ_total
      { time := ev.time, process := ev.process } fe1
    simp only [Simulation.step, hpop, hlk, handleEffect, hres, hq, hfe1, hfe2]
    refine ⟨_, rfl, ?_, hp2.trans (hp1.cons _), rfl, rfl⟩
    rw [← hav]
  · intro hq hlt
    obtain ⟨fe, hfe, hp⟩ := heapPush_ok (revCmp tpcmpQ) revCmpQ_total
      { time := ev.time, process := ev.process } rest
    simp only [Simulation.step, hpop, hlk, handleEffect, hres, hq]
    rw [if_pos hlt]
    simp only [hfe]
    exact ⟨_, rfl, rfl, hp, rfl, rfl⟩

/-- C3 witness: `relSim` exercises the hand-off branch — waiter 2 and
releaser 1 are both scheduled at the current time and `available` stays 0. -/
theorem release_handoff_semantics_witness :
    heapPop (revCmp tpcmpQ) relSim.future_events =
      .ok (some ({ time := 1, process := 1 }, [])) ∧
    lookupA relSim.processes 1 = some (some [Effect.Release 0]) ∧
    relSim.resources.get? 0 = some { allocated := 1, available := 0, queue := [2] } ∧
    ∃ s', relSim.step tpcmpQ = .ok s' ∧
      s'.resources = [{ allocated := 1, available := 0, queue := [] }] ∧
      s'.future_events.Perm [{ time := 1, process := 1 }, { time := 1, process := 2 }] ∧
      s'.context.time = 1 ∧
      s'.processed_events = [{ time := 1, process := 1 }] := by
  refine ⟨rfl, rfl, rfl, ?_⟩
  have h := (release_handoff_semantics relSim { time := 1, process := 1 } [] 0
    { allocated := 1, available := 0, queue := [2] } [] rfl rfl rfl).1 2 [] rfl rfl
  simpa using h

/-- C4: a `Request(r)` yielded when `available > 0` decrements `available`
and schedules the requesting process at the current time; when
`available = 0` the process is appended to the back of `r`'s FIFO waiter
queue and is not rescheduled (the queue is left exactly as it was). -/
theorem request_semantics {T : Type} (s : Simulation T ℚ) (ev : Event ℚ)
    (rest : List (Event ℚ)) (r : ResourceId) (res : Resource) (k : Proc T ℚ)
    (hpop : heapPop (revCmp tpcmpQ) s.future_events = .ok (some (ev, rest)))
    (hlk : lookupA s.processes ev.process = some (some (Effect.Request r :: k)))
    (hres : s.resources.get? r = some res) :
    (res.available = 0 →
      ∃ s', s.step tpcmpQ = .ok s' ∧
        s'.resources = s.resources.set r
          { allocated := res.allocated, available := 0,
            queue := res.queue ++ [ev.process] } ∧
        s'.future_events = rest ∧
        s'.context.time = ev.time ∧
        s'.processed_events = s.processed_events ++ [ev]) ∧
    (∀ m, res.available = m + 1 →
      ∃ s', s.step tpcmpQ = .ok s' ∧
        s'.resources = s.resources.set r
          { allocated := res.allocated, available := m, queue := res.queue } ∧
        s'.future_events.Perm ({ time := ev.time, process := ev.process } :: rest) ∧
        s'.context.time = ev.time ∧
        s'.processed_events = s.processed_events ++ [ev]) := by
  constructor
  · intro hav
    simp only [Simulation.step, hpop, hlk, handleEffect, hres]
    rw [if_pos hav]
    refine ⟨_, rfl, ?_, rfl, rfl, rfl⟩
    rw [← hav]
  · intro m hav
    obtain ⟨fe, hfe, hp⟩ := heapPush_ok (revCmp tpcmpQ) revCmpQ_total
      { time := ev.time, process := ev.process } rest
    simp only [Simulation.step, hpop, hlk, handleEffect, hres]
    rw [if_neg (by omega : ¬ res.available = 0), hfe]
    refine ⟨_, rfl, ?_, hp, rfl, rfl⟩
    rw [hav]
    norm_num

/-- C4 witness: `reqSim` exercises the grant branch — `available` drops
from 1 to 0 and process 1 is rescheduled at the current time. -/
theorem request_semantics_witness :
    heapPop ( revCmp tpcmpQ) reqSim.future_events =
      .ok (some ({ time := 1, process := 1 }, [])) ∧
    lookupA reqSim.processes 1 = some (some [Effect.Request 0]) ∧
    reqSim.resources.get? 0 = some { allocated := 2, available := 1, queue := [] } ∧
    ∃ s', reqSim.step tpcmpQ = .ok s' ∧
      s'.resources = [{ allocated := 2, available := 0, queue := [] }] ∧
      s'.future_events.Perm [{ time := 1, process := 1 }] ∧
      s'.context.time = 1 ∧
      s'.processed_events = [{ time := 1, process := 1 }] := by
  refine ⟨rfl, rfl, rfl, ?_⟩
  have h := (request_semantics reqSim { time := 1, process := 1 } [] 0
    { allocated := 2, available := 1, queue := [] } [] rfl rfl rfl).2 0 rfl
  simpa using h

/-- C7: a `Release(r)` yielded when `available` already equals the
capacity (`allocated`) and the waiter queue is empty hits the
`assert!(res.available < res.allocated)` and is a fatal kernel error. -/
theorem release_beyond_capacity_fatal {T : Type} (s : Simulation T ℚ) (ev : Event ℚ)
    (rest : List (Event ℚ)) (r : ResourceId) (res : Resource) (k : Proc T ℚ)
    (hpop : heapPop (revCmp tpcmpQ) s.future_events = .ok (some (ev, rest)))
    (hlk : lookupA s.processes ev.process = some (some (Effect.Release r :: k)))
    (hres : s.resources.get? r = some res)
    (hq : res.queue = [])
    (heq : res.available = res.allocated) :
    s.step tpcmpQ = .error "assertion failed: res.available < res.allocated" := by
  simp only [Simulation.step, hpop, hlk, handleEffect, hres, hq]
  rw [if_neg (by omega : ¬ res.available < res.allocated)]

/-- C7 witness: `overSim` releases a full capacity-1 resource and aborts. -/
theorem release_beyond_capacity_fatal_witness :
    heapPop (revCmp tpcmpQ) overSim.future_events =
      .ok (some ({ time := 0, process := 1 }, [])) ∧
    lookupA overSim.processes 1 = some (some [Effect.Release 0]) ∧
    overSim.resources.get? 0 = some { allocated := 1, available := 1, queue := [] } ∧
    overSim.step tpcmpQ = .error "assertion failed: res.available < res.allocated" :=
  ⟨rfl, rfl, rfl,
    release_beyond_capacity_fatal overSim { time := 0, process := 0 + 1 } [] 0
      { allocated := 1, available := 1, queue := [] } [] rfl rfl rfl rfl rfl⟩

/-- C8: when a process body completes during a step the kernel replaces
its slot with a tombstone (`None`) while keeping the slot under the same
`ProcessId`; any later step that pops an event naming that `ProcessId`
is the fatal error `"ERROR. Tried to resume a completed process."`. -/
theorem completed_process_tombstone {T : Type} :
    (∀ (s : Simulation T ℚ) (ev : Event ℚ) (rest : List (Event ℚ)),
      heapPop (revCmp tpcmpQ) s.future_events = .ok (some (ev, rest)) →
      lookupA s.processes ev.process = some (some []) →
      ∃ s', s.step tpcmpQ = .ok s' ∧
        s'.processes = setA s.processes ev.process none ∧
        lookupA s'.processes ev.process = some none ∧
        s'.future_events = rest ∧
        s'.context.time = ev.time ∧
        s'.processed_events = s.processed_events ++ [ev]) ∧
    (∀ (s : Simulation T ℚ) (ev : Event ℚ) (rest : List (Event ℚ)),
      heapPop (revCmp tpcmpQ) s.future_events = .ok (some (ev, rest)) →
      lookupA s.processes ev.process = some none →
      s.step tpcmpQ = .error "ERROR. Tried to resume a completed process.") := by
  constructor
  · intro s ev rest hpop hlk
    simp only [Simulation.step, hpop, hlk]
    exact ⟨_, rfl, rfl, lookupA_setA s.processes ev.process none (some []) hlk, rfl, rfl, rfl⟩
  · intro s ev rest hpop hlk
    simp only [Simulation.step, hpop, hlk]

/-- C8 witness: `doneSim` completes process 1 and leaves a tombstone;
`tombSim` then shows that resuming the tombstone is fatal. -/
theorem completed_process_tombstone_witness :
    (heapPop (revCmp tpcmpQ) doneSim.future_events =
        .ok (some ({ time := 2, process := 1 }, [])) ∧
      ∃ s', doneSim.step tpcmpQ = .ok s' ∧
        s'.processes = [(1, none)] ∧
        lookupA s'.processes 1 = some none ∧
        s'.future_events = [] ∧
        s'.context.time = 2 ∧
        s'.processed_events = [{ time := 2, process := 1 }]) ∧
    (heapPop (revCmp tpcmpQ) tombSim.future_events =
        .ok (some ({ time := 2, process := 1 }, [])) ∧
      tombSim.step tpcmpQ = .error "ERROR. Tried to resume a completed process.") := by
  constructor
  · refine ⟨rfl, ?_⟩
    have h := (completed_process_tombstone (T := Unit)).1 doneSim
      { time := 2, process := 1 } [] rfl rfl
    simpa using h
  · exact ⟨rfl, (completed_process_tombstone (T := Unit)).2 tombSim
      { time := 2, process := 1 } [] rfl rfl⟩

theorem check_iterate_not_mem {T : Type} (p : ProcessId) :
    ∀ (m : Nat) (c : Context T ℚ), p ∉ c.interrupted →
      p ∉ ((fun cc => (Context.check_interrupted cc p).2)^[m] c).interrupted := by
  intro m
  induction m with
  | zero => intro c h; simpa using h
  | succ m ih =>
    intro c h
    rw [Function.iterate_succ_apply]
    exact ih _ (Finset.not_mem_erase p c.interrupted)

/-- C9: the interrupt flag latches.  Processing `Interrupt(pd)` during a
step inserts `pd` into the interrupted set (and schedules both parties at
the current instant); however many interrupts accumulate before the
target queries, the first `check_interrupted` returns `true`, every
further query returns `false` (the flag was atomically cleared), and a
fresh interrupt re-arms it. -/
theorem interrupt_latch {T : Type} :
    (∀ (s : Simulation T ℚ) (ev : Event ℚ) (rest : List (Event ℚ))
        (pd : ProcessId) (k : Proc T ℚ),
      heapPop (revCmp tpcmpQ) s.future_events = .ok (some (ev, rest)) →
      lookupA s.processes ev.process = some (some (Effect.Interrupt pd :: k)) →
      ∃ s', s.step tpcmpQ = .ok s' ∧
        s'.context.interrupted = insert pd s.context.interrupted ∧
        s'.future_events.Perm
          ({ time := ev.time, process := ev.process } ::
            { time := ev.time, process := pd } :: rest)) ∧
    (∀ (c : Context T ℚ) (p : ProcessId) (n : Nat), 1 ≤ n →
      ((((fun cc => Context.interrupt cc p)^[n] c).check_interrupted p).1 = true) ∧
      (∀ m : Nat,
        ((((fun cc => (Context.check_interrupted cc p).2)^[m]
            ((((fun cc => Context.interrupt cc p)^[n] c).check_interrupted p).2)).check_interrupted
              p).1 = false)) ∧
      (((((fun cc => Context.interrupt cc p)^[n] c).check_interrupted p).2.interrupt
          p).check_interrupted p).1 = true) := by
  constructor
  · intro s ev rest pd k hpop hlk
    obtain ⟨fe1, hfe1, hp1⟩ := heapPush_ok (revCmp tpcmpQ) revCmpQ_total
      { time := ev.time, process := pd } rest
    obtain ⟨fe2, hfe2, hp2⟩ := heapPush_ok (revCmp tpcmpQ) revCmpQ_total
      { time := ev.time, process := ev.process } fe1
    simp only [Simulation.step, hpop, hlk, handleEffect, hfe1, hfe2]
    exact ⟨_, rfl, rfl, hp2.trans (hp1.cons _)⟩
  · intro c p n hn
    obtain ⟨n', rfl⟩ : ∃ n', n = n' + 1 := ⟨n - 1, by omega⟩
    have hmem : p ∈ ((fun cc => Context.interrupt cc p)^[n' + 1] c).interrupted := by
      rw [Function.iterate_succ_apply']
      exact Finset.mem_insert_self p _
    refine ⟨by simpa [Context.check_interrupted] using hmem, ?_, ?_⟩
    · intro m
      have hout : p ∉ ((((fun cc => Context.interrupt cc p)^[n' + 1] c).check_interrupted
          p).2).interrupted := Finset.not_mem_erase p _
      have hnm := check_iterate_not_mem p m _ hout
      simpa [Context.check_interrupted] using hnm
    · simp [Context.check_interrupted, Context.interrupt]

/-- C9 witness: at `intSim`, processing `Interrupt(2)` inserts 2 into the
interrupted set and schedules processes 1 and 2 at the current instant;
on any context, after an interrupt the first query is true and later
queries are false until the next interrupt. -/
theorem interrupt_latch_witness :
    (heapPop (revCmp tpcmpQ) intSim.future_events =
        .ok (some ({ time := 1, process := 1 }, [])) ∧
      ∃ s', intSim.step tpcmpQ = .ok s' ∧
        s'.context.interrupted = insert 2 ∅ ∧
        s'.future_events.Perm
          [{ time := 1, process := 1 }, { time := 1, process := 2 }]) ∧
    (1 ≤ 1 ∧
      ((((fun cc => Context.interrupt cc 5)^[1] (Context.new Unit)).check_interrupted 5).1
          = true) ∧
      (∀ m : Nat,
        ((((fun cc => (Context.check_interrupted cc 5).2)^[m]
            ((((fun cc => Context.interrupt cc 5)^[1]
              (Context.new Unit)).check_interrupted 5).2)).check_interrupted 5).1 = false)) ∧
      (((((fun cc => Context.interrupt cc 5)^[1]
          (Context.new Unit)).check_interrupted 5).2.interrupt 5).check_interrupted 5).1
          = true) := by
  constructor
  · refine ⟨rfl, ?_⟩
    have h := (interrupt_latch (T := Unit)).1 intSim { time := 1, process := 1 } [] 2 []
      rfl rfl
    simpa using h
  · exact ⟨le_refl 1, (interrupt_latch (T := Unit)).2 (Context.new Unit) 5 1 (le_refl 1)⟩

/-- C10: `step` on an empty queue is a complete no-op, so once the queue
is empty while the clock is strictly below `T`, the condition
`clock ≥ T` can never become true and `run(EndCondition::Time(T))` loops
forever — it does not return within any number of iterations. -/
theorem run_until_time_diverges {T : Type} (s : Simulation T ℚ) (tq : ℚ)
    (hfe : s.future_events = [])
    (hlt : s.context.time < tq) :
    s.step tpcmpQ = .ok s ∧
    ∀ fuel, Simulation.run tpcmpQ fuel s (EndCondition.Time tq) = .ok none := by
  have hstep : s.step tpcmpQ = .ok s := by
    simp only [Simulation.step, hfe]
    rfl
  have hcond : s.check_ending_condition tpcmpQ (EndCondition.Time tq) = false := by
    simp only [Simulation.check_ending_condition, tpcmpQ, if_pos hlt]
  refine ⟨hstep, ?_⟩
  intro fuel
  induction fuel with
  | zero => rfl
  | succ fuel ih =>
    rw [Simulation.run, hcond]
    simp only [Bool.false_eq_true, if_false, hstep]
    exact ih

/-- C10 witness: `quietSim` has an empty queue and clock `0 < 10`; `step`
leaves it unchanged and `run` does not return within 5 iterations. -/
theorem run_until_time_diverges_witness :
    quietSim.future_events = [] ∧ quietSim.context.time < 10 ∧
    quietSim.step tpcmpQ = .ok quietSim ∧
    Simulation.run tpcmpQ 5 quietSim (EndCondition.Time 10) = .ok none := by
  have h := run_until_time_diverges quietSim 10 rfl (by decide)
  exact ⟨rfl, by decide, h.1, h.2 5⟩

/-- C1: equal-time events are not popped in FIFO insertion order.  The
heap orders events by `time` alone with no insertion counter, and the
standard library's binary heap is not stable: scheduling
`{0,1}, {0,2}, {0,3}, {0,4}` in this order and stepping four times
resumes the processes in the order `1, 3, 2, 4`. -/
theorem equal_time_events_not_fifo :
    fifoRun.map (fun s => s.processed_events) =
      .ok [{ time := 0, process := 1 }, { time := 0, process := 3 },
           { time := 0, process := 2 }, { time := 0, process := 4 }] ∧
    fifoRun.map (fun s => s.processed_events) ≠
      .ok [{ time := 0, process := 1 }, { time := 0, process := 2 },
           { time := 0, process := 3 }, { time := 0, process := 4 }] := by
  have h1 : fifoRun.map (fun s => s.processed_events) =
      .ok [{ time := 0, process := 1 }, { time := 0, process := 3 },
           { time := 0, process := 2 }, { time := 0, process := 4 }] := by rfl
  refine ⟨h1, ?_⟩
  rw [h1]
  intro h
  have h2 := Except.ok.inj h
  have h3 := congrArg (fun l => (l.get? 1).map Event.process) h2
  simp at h3

/-- C2: the clock is not monotone.  `schedule_event` accepts a past event
unmodified (no clamping, no rejection) and `step` sets the clock to the
popped event's time: after consuming `{5,1}` the clock is 5, and after
injecting and consuming `{3,1}` it regresses to 3. -/
theorem clock_regresses_on_past_event :
    regressFirst.map (fun s => s.context.time) = .ok 5 ∧
    regressSecond.map (fun s => s.context.time) = .ok 3 ∧ (3 : ℚ) < 5 :=
  ⟨rfl, rfl, by norm_num⟩

/-- C6: an event whose time is NaN is accepted silently.  Pushing onto an
empty heap performs no comparison, so `schedule_event` succeeds (no trap)
and stores the NaN event; the following `step` even pops it (a
single-element pop also compares nothing) and sets the clock to NaN. -/
theorem nan_event_silently_accepted :
    nanSched.map (fun s => s.future_events) = .ok [{ time := F64.nan, process := 1 }] ∧
    (nanSched >>= fun s => s.step tpcmpF).map (fun s => s.context.time) =
      .ok F64.nan :=
  ⟨rfl, rfl⟩

end Desim
